import Mathlib

/-!
Verification of the SecretSage credential storage and synchronization engine.

Shallow embedding of:
- the vault record data model (src/src/core/types.ts),
- the Vault Store (src/src/sources/local/index.ts),
- the Source Registry (src/src/sources/registry.ts),
- the grant/revoke reconciler and env serialization (src/src/core/service.ts),
- the vault-location resolution of the Credential Service.

External collaborators (the age encryption npm package, the dotenv parser)
are modelled as capability parameters, following the contracts stated in the
specification (sections 6 and 4.3).
-/

namespace SecretSage

/-! ## Data model (core/types.ts)

Timestamps (`Date` values in the source) are modelled as natural numbers;
the code only ever stores `new Date()` and carries the value through, so
any totally ordered value type is faithful.  The `scope` field of
`CredentialMetadata` (documented as a v2 feature, never read or written by
the core) is omitted. -/

structure CredentialMetadata where
  name : String
  createdAt : Option Nat
  updatedAt : Option Nat
  description : Option String
  tags : List String
deriving Repr, DecidableEq

structure Credential where
  name : String
  value : String
  source : String
  metadata : Option CredentialMetadata
deriving Repr, DecidableEq

structure VaultEntry where
  name : String
  encryptedValue : String
  metadata : Option CredentialMetadata
deriving Repr, DecidableEq

/-! ## Env value serialization (CredentialService.stringifyEnv, core/service.ts 277-288)

The source tests `/[\s#"'\\]/.test(value) || value.includes('=')` and, when the
test holds, wraps the value in double quotes escaping internal `"` characters
(`value.replace(/"/g, '\\"')`).  Values are modelled as lists of characters;
the JavaScript `\s` class is modelled by its ASCII members (the Unicode space
characters it also matches play no role in any claim). -/

def isEnvSpace (c : Char) : Bool :=
  c == ' ' || c == '\t' || c == '\n' || c == '\r' || c == Char.ofNat 11 || c == Char.ofNat 12

/-- The quoting trigger of `stringifyEnv`: `/[\s#"'\\]/.test(value) || value.includes('=')`. -/
def needsQuotes (v : List Char) : Bool :=
  v.any fun c =>
    isEnvSpace c || c == '#' || c == '"' || c == '\'' || c == '\\' || c == '='

/-- The quoting trigger as the specification words it: "values containing
whitespace, quote characters, backslashes, or an embedded `=`" (no `#`).
Stated from the spec only, for comparison with `needsQuotes`. -/
def specQuoteTrigger (v : List Char) : Bool :=
  v.any fun c =>
    isEnvSpace c || c == '"' || c == '\'' || c == '\\' || c == '='

/-- Escaping of internal double quotes: `value.replace(/"/g, '\\"')`. -/
def escapeQuotes : List Char → List Char
  | [] => []
  | c :: cs => if c = '"' then '\\' :: '"' :: escapeQuotes cs else c :: escapeQuotes cs

/-- The value production of `stringifyEnv`: quoted with escaped internal
quotes when `needsQuotes`, bare otherwise. -/
def quoteValue (v : List Char) : List Char :=
  if needsQuotes v then '"' :: (escapeQuotes v ++ ['"']) else v

/-! ## Env parsing (spec-modelled)

Modelled from the spec: the env document parser is an external collaborator
(the source imports `parse` from the dotenv package, which is not part of
this repository).  Section 6 of the spec fixes its contract: text file of
`NAME=value` lines, double-quoted values support escaped `"`, comments and
blank lines are tolerated. -/

/-- Modelled from the spec: undo the quote escaping of a double-quoted env
value, replacing each `\"` by `"` left to right. -/
def unescapeQuotes : List Char → List Char
  | [] => []
  | [c] => [c]
  | c :: d :: cs =>
    if c = '\\' ∧ d = '"' then '"' :: unescapeQuotes cs
    else c :: unescapeQuotes (d :: cs)

/-- Modelled from the spec: parse one env value; a value wrapped in double
quotes is unwrapped with escaped quotes unescaped, anything else is bare. -/
def parseValue (v : List Char) : List Char :=
  match v with
  | '"' :: rest =>
    match rest.getLast? with
    | some '"' => unescapeQuotes rest.dropLast
    | _ => '"' :: rest
  | other => other

/-- Split a line at its first `=`; `none` when the line has no `=`. -/
def splitAtEq : List Char → Option (List Char × List Char)
  | [] => none
  | c :: cs =>
    if c = '=' then some ([], cs)
    else (splitAtEq cs).map fun p => (c :: p.1, p.2)

/-- Modelled from the spec: parse one `NAME=value` env line into key and value. -/
def parseEnvLine (line : List Char) : Option (List Char × List Char) :=
  (splitAtEq line).map fun p => (p.1, parseValue p.2)

/-! ## Env mapping operations (CredentialService.grant / revoke, core/service.ts 156-220)

The parsed env document is a JavaScript object `Record<string, string>`:
string-keyed, insertion-ordered, keys unique.  It is modelled as an
association list.  `envSet` models `existingEnv[name] = value` (replace in
place if the key exists, append otherwise), `envDelete` models
`delete existingEnv[name]`, `envGet` models property lookup. -/

def envGet : List (String × String) → String → Option String
  | [], _ => none
  | kv :: rest, k => if kv.1 = k then some kv.2 else envGet rest k

def envSet : List (String × String) → String → String → List (String × String)
  | [], k, v => [(k, v)]
  | kv :: rest, k, v => if kv.1 = k then (k, v) :: rest else kv :: envSet rest k v

def envDelete (env : List (String × String)) (k : String) : List (String × String) :=
  env.filter fun kv => kv.1 ≠ k

/-- Grant at the mapping level (core/service.ts 177-185): for each requested
name, resolve through the registry (`lookup`); on a hit overwrite-or-insert
the entry and record the name as granted, otherwise skip it silently. -/
def grantEnv (lookup : String → Option String) (env0 : List (String × String))
    (names : List String) : List (String × String) × List String :=
  names.foldl
    (fun acc n =>
      match lookup n with
      | some v => (envSet acc.1 n v, acc.2 ++ [n])
      | none => acc)
    (env0, [])

/-- Revoke at the mapping level (core/service.ts 207-213): remove each
requested name that is present; absent names are skipped. -/
def revokeEnv (env0 : List (String × String)) (names : List String) :
    List (String × String) × List String :=
  names.foldl
    (fun acc n =>
      if (envGet acc.1 n).isSome then (envDelete acc.1 n, acc.2 ++ [n]) else acc)
    (env0, [])

/-! ## Env document serialization (CredentialService.stringifyEnv)

Documents are modelled as lists of characters.  `stringifyLines` mirrors the
`lines.push(...)` loop, `stringifyEnvChars` the final
`lines.join('\n') + '\n'`. -/

def lineOf (kv : String × String) : List Char :=
  kv.1.data ++ '=' :: quoteValue kv.2.data

def stringifyLines (env : List (String × String)) : List (List Char) :=
  env.foldl (fun lines kv => lines ++ [lineOf kv]) []

def stringifyEnvChars (env : List (String × String)) : List Char :=
  (List.intercalate ['\n'] (stringifyLines env)) ++ ['\n']

/-! ## Env document parsing (spec-modelled) -/

/-- Split a document into its lines at each newline character. -/
def splitOnNl : List Char → List (List Char)
  | [] => [[]]
  | c :: cs =>
    if c = '\n' then [] :: splitOnNl cs
    else
      match splitOnNl cs with
      | [] => [[c]]
      | l :: ls => (c :: l) :: ls

/-- Strip leading and trailing whitespace from a line. -/
def trimChars (l : List Char) : List Char :=
  ((l.dropWhile isEnvSpace).reverse.dropWhile isEnvSpace).reverse

/-- Modelled from the spec: the env document parser (the dotenv package, an
external collaborator per section 6) maps `NAME=value` lines to a mapping,
tolerating blank lines and `#` comment lines; double-quoted values support
escaped `"`; later lines override earlier ones. -/
def parseEnvDoc (doc : List Char) : List (String × String) :=
  (splitOnNl doc).foldl
    (fun env line =>
      let t := trimChars line
      if t = [] then env
      else if t.head? = some '#' then env
      else
        match splitAtEq t with
        | none => env
        | some (k, rest) => envSet env (String.mk k) (String.mk (parseValue rest)))
    []

/-- Grant at the document level (core/service.ts 156-192, file system
abstracted to the optional document content): parse the existing document
(empty mapping when the file does not exist), merge the resolved
credentials, serialize the full mapping back.  Returns the new document and
the granted names. -/
def grantDoc (lookup : String → Option String) (doc : Option (List Char))
    (names : List String) : List Char × List String :=
  let env0 := match doc with
    | none => []
    | some content => parseEnvDoc content
  let r := grantEnv lookup env0 names
  (stringifyEnvChars r.1, r.2)

/-- Revoke at the document level (core/service.ts 197-220): when the file
does not exist, report zero revocations and write nothing (`none`);
otherwise parse, remove, and rewrite. -/
def revokeDoc (doc : Option (List Char)) (names : List String) :
    Option (List Char × List String) :=
  match doc with
  | none => none
  | some content =>
    let r := revokeEnv (parseEnvDoc content) names
    some (stringifyEnvChars r.1, r.2)

/-! ## Vault Store (src/src/sources/local/index.ts)

The age encryption npm package is an external collaborator (spec section 6);
it is modelled as a capability record.  `decrypt` returns `none` where the
package throws (key mismatch, corrupted ciphertext). -/

structure AgeProviderModel where
  encrypt : String → String → String
  decrypt : String → String → Option String

/-- Errors the Vault Store operations can surface (spec section 7 taxonomy).
`identityNotFound` / `recipientNotFound` model `loadIdentity` /
`loadRecipient` throwing when the key file is missing; `decryptionFailed`
models the decrypt throw.  `corruptVault` is the error the spec demands for
an unparsable vault file; the implementation never constructs it. -/
inductive VaultError where
  | corruptVault
  | decryptionFailed
  | identityNotFound
  | recipientNotFound
deriving Repr, DecidableEq

/-- LocalSource.readVault (lines 209-226), at file-content level.  The file
is `none` when absent.  `JSON.parse` is abstracted as the `parse`
parameter; the `!content.trim()` guard is the all-whitespace test; the
`catch` arm returns the empty list when parsing fails ("If file doesn't
exist or is invalid, return empty"). -/
def readVault (parse : String → Option (List VaultEntry)) (file : Option String) :
    List VaultEntry :=
  match file with
  | none => []
  | some content =>
    if content.data.all isEnvSpace then []
    else
      match parse content with
      | some entries => entries
      | none => []

/-- Metadata of one listed entry: `{ name: entry.name, ...entry.metadata }`;
a present metadata object spreads over (and, carrying its own `name` field,
replaces) the first property. -/
def listEntryMeta (e : VaultEntry) : CredentialMetadata :=
  match e.metadata with
  | some m => m
  | none => { name := e.name, createdAt := none, updatedAt := none,
              description := none, tags := [] }

/-- LocalSource.list (lines 96-102) at file-content level. -/
def vaultListRaw (parse : String → Option (List VaultEntry)) (file : Option String) :
    List CredentialMetadata :=
  (readVault parse file).map listEntryMeta

/-- LocalSource.get (lines 73-91) at file-content level; `identity` is the
content of the identity key file (`none` when missing). -/
def vaultGetRaw (p : AgeProviderModel) (parse : String → Option (List VaultEntry))
    (file : Option String) (identity : Option String) (name : String) :
    Except VaultError (Option Credential) :=
  match (readVault parse file).find? (fun e => e.name == name) with
  | none => Except.ok none
  | some e =>
    match identity with
    | none => Except.error VaultError.identityNotFound
    | some priv =>
      match p.decrypt e.encryptedValue priv with
      | none => Except.error VaultError.decryptionFailed
      | some v =>
        Except.ok (some { name := e.name, value := v, source := "local",
                          metadata := e.metadata })

/-! ### C1 and C10: corrupt and blank vault files -/

/-- A trivially failing JSON parse, used as the concrete parse result of an
invalid vault file. -/
def rejectAll : String → Option (List VaultEntry) := fun _ => none

/-- An encryption capability that never has to decrypt anything: both
operations are identities. -/
def idProvider : AgeProviderModel :=
  { encrypt := fun v _ => v, decrypt := fun c _ => some c }

/-! ## Vault Store state-level operations (LocalSource.set / get / list / getAll)

For the record-level claims the vault file is abstracted to its parsed
entry list (`none` = file absent); `readVault` above handles the
content-level corner cases, and `JSON.stringify`/`JSON.parse` round-trip
the entry records exactly. -/

structure LocalVaultState where
  identity : Option String
  recipient : Option String
  vault : Option (List VaultEntry)

/-- A `Partial<CredentialMetadata>` argument of `set`: present fields
override the freshly built base metadata in the `...metadata` spread. -/
structure MetadataPatch where
  name : Option String
  createdAt : Option Nat
  updatedAt : Option Nat
  description : Option String
  tags : Option (List String)
deriving Repr, DecidableEq

def emptyPatch : MetadataPatch :=
  { name := none, createdAt := none, updatedAt := none, description := none, tags := none }

/-- The spread `{ name, createdAt, updatedAt, ...metadata }`: each field of
the patch that is present replaces the base field. -/
def applyPatch (base : CredentialMetadata) (p : MetadataPatch) : CredentialMetadata :=
  { name := p.name.getD base.name
    createdAt := match p.createdAt with | some t => some t | none => base.createdAt
    updatedAt := match p.updatedAt with | some t => some t | none => base.updatedAt
    description := match p.description with | some d => some d | none => base.description
    tags := p.tags.getD base.tags }

/-- Replace the first entry whose name matches.  The source computes
`existingIndex = entries.findIndex(e => e.name === name)` and assigns
`entries[existingIndex] = newEntry`; this helper performs the same
first-match replacement, returning `none` when `findIndex` is `-1` (the
source then pushes instead). -/
def replaceFirst (name : String) (newEntry : VaultEntry) : List VaultEntry →
    Option (List VaultEntry)
  | [] => none
  | e :: rest =>
    if e.name == name then some (newEntry :: rest)
    else (replaceFirst name newEntry rest).map (e :: ·)

/-- The metadata object `set` builds before the patch spread:
`{ name, createdAt: existingIndex >= 0 ? entries[existingIndex].metadata?.createdAt : now, updatedAt: now }`
(`entries[existingIndex]` is the first entry whose name matches). -/
def setBaseMeta (now : Nat) (name : String) (entries : List VaultEntry) :
    CredentialMetadata :=
  { name := name
    createdAt := match entries.find? (fun e => e.name == name) with
      | some e => e.metadata.bind (fun m => m.createdAt)
      | none => some now
    updatedAt := some now
    description := none
    tags := [] }

/-- The `newEntry` object `set` builds (lines 125-134). -/
def mkSetEntry (p : AgeProviderModel) (pub : String) (now : Nat)
    (name value : String) (patch : MetadataPatch) (entries : List VaultEntry) :
    VaultEntry :=
  { name := name
    encryptedValue := p.encrypt value pub
    metadata := some (applyPatch (setBaseMeta now name entries) patch) }

/-- The replace-or-append step of `set` (lines 136-140). -/
def upsert (name : String) (newEntry : VaultEntry) (entries : List VaultEntry) :
    List VaultEntry :=
  match replaceFirst name newEntry entries with
  | some l => l
  | none => entries ++ [newEntry]

/-- LocalSource.set (lines 107-144): read the vault, encrypt the value
against the recipient key, build the new entry preserving `createdAt` of a
pre-existing first match, replace-or-append, write back.  `now` is the
`new Date()` timestamp. -/
def localSet (p : AgeProviderModel) (now : Nat) (st : LocalVaultState)
    (name value : String) (patch : MetadataPatch) :
    Except VaultError LocalVaultState :=
  match st.recipient with
  | none => Except.error VaultError.recipientNotFound
  | some pub =>
    Except.ok
      { st with vault := some (upsert name
          (mkSetEntry p pub now name value patch (st.vault.getD []))
          (st.vault.getD [])) }

/-- LocalSource.get (lines 73-91) at state level. -/
def localGet (p : AgeProviderModel) (st : LocalVaultState) (name : String) :
    Except VaultError (Option Credential) :=
  match (st.vault.getD []).find? (fun e => e.name == name) with
  | none => Except.ok none
  | some e =>
    match st.identity with
    | none => Except.error VaultError.identityNotFound
    | some priv =>
      match p.decrypt e.encryptedValue priv with
      | none => Except.error VaultError.decryptionFailed
      | some v =>
        Except.ok (some { name := e.name, value := v, source := "local",
                          metadata := e.metadata })

/-- LocalSource.list (lines 96-102) at state level. -/
def localList (st : LocalVaultState) : List CredentialMetadata :=
  (st.vault.getD []).map listEntryMeta

/-- The decrypt-and-push loop of LocalSource.getAll (lines 186-194): the
first decryption throw aborts the whole loop. -/
def getAllLoop (p : AgeProviderModel) (priv : String) :
    List VaultEntry → Except VaultError (List Credential)
  | [] => Except.ok []
  | e :: rest =>
    match p.decrypt e.encryptedValue priv with
    | none => Except.error VaultError.decryptionFailed
    | some v =>
      match getAllLoop p priv rest with
      | Except.ok cs =>
        Except.ok ({ name := e.name, value := v, source := "local",
                     metadata := e.metadata } :: cs)
      | Except.error err => Except.error err

/-- LocalSource.getAll (lines 180-197) at state level. -/
def localGetAll (p : AgeProviderModel) (st : LocalVaultState) :
    Except VaultError (List Credential) :=
  match st.identity with
  | none => Except.error VaultError.identityNotFound
  | some priv => getAllLoop p priv (st.vault.getD [])

/-- Metadata of the first record named `name` in a state's vault. -/
def recMeta (st : LocalVaultState) (name : String) : Option CredentialMetadata :=
  ((st.vault.getD []).find? (fun e => e.name == name)).bind (fun e => e.metadata)

/-! ### C3: getAll and decryption failures -/

/-- An encryption capability with one undecryptable ciphertext. -/
def flakyProvider : AgeProviderModel :=
  { encrypt := fun v _ => v
    decrypt := fun c _ => if c = "UNDECRYPTABLE" then none else some c }

/-! ## Source Registry (src/src/sources/registry.ts)

A registered backend (`ICredentialSource`) is abstracted to its observable
behavior: availability probe result, priority, read callbacks, and whether
it supports deletion (`delete?` presence) together with its delete result.
`availableSources` mirrors `getAvailableSources` (filter by `isAvailable`,
then sort ascending by priority; the JavaScript sort is stable, as is
insertion sort). -/

structure CSource where
  id : String
  priority : Nat
  avail : Bool
  get : String → Option Credential
  list : List CredentialMetadata
  canDelete : Bool
  del : String → Bool

def availableSources (srcs : List CSource) : List CSource :=
  List.insertionSort (fun a b => a.priority ≤ b.priority)
    (srcs.filter (fun s => s.avail))

/-- The first-non-null loop of `CredentialSourceRegistry.get` (lines 80-88). -/
def firstHit (name : String) : List CSource → Option Credential
  | [] => none
  | s :: rest =>
    match s.get name with
    | some c => some c
    | none => firstHit name rest

def registryGet (srcs : List CSource) (name : String) : Option Credential :=
  firstHit name (availableSources srcs)

/-- The seen-set deduplication loop of `CredentialSourceRegistry.list`
(lines 95-110), applied to the concatenated per-source metadata lists. -/
def dedupFirst (seen : List String) : List CredentialMetadata → List CredentialMetadata
  | [] => []
  | m :: rest =>
    if m.name ∈ seen then dedupFirst seen rest
    else m :: dedupFirst (m.name :: seen) rest

def registryList (srcs : List CSource) : List CredentialMetadata :=
  dedupFirst [] (((availableSources srcs).map (fun s => s.list)).flatten)

/-- `CredentialSourceRegistry.delete` without a `sourceId` (lines 166-174):
fold over every available backend, invoking `delete` on each one that
supports it and or-ing the results.  The second component records, in
order, the ids of the backends whose `delete` was invoked. -/
def registryDeleteAll (srcs : List CSource) (name : String) : Bool × List String :=
  (availableSources srcs).foldl
    (fun acc s => if s.canDelete then (acc.1 || s.del name, acc.2 ++ [s.id]) else acc)
    (false, [])

/-! ## Credential Service vault-location resolution (core/service.ts, config)

`loadConfig` (config/loader.ts) merges defaults < global config < local
config; `getDefaultConfig` (config/types.ts) sets
`vault.defaultLocation = 'global'` with no custom path.  Only the vault
fields matter here; the resolved directory is abstracted to its kind. -/

inductive VaultLocationKind where
  | globalLoc
  | localLoc
  | customLoc
deriving Repr, DecidableEq

structure VaultConfigModel where
  defaultLocation : VaultLocationKind
  customPath : Option String
deriving Repr, DecidableEq

/-- The vault portion of `getDefaultConfig()`: `defaultLocation: 'global'`,
no custom path. -/
def defaultVaultConfig : VaultConfigModel :=
  { defaultLocation := VaultLocationKind.globalLoc, customPath := none }

inductive VaultDir where
  | localDir
  | globalDir
  | customDir (p : String)
deriving Repr, DecidableEq

/-- CredentialService.init (lines 40-62): the source paths are rooted at
the local directory iff `options.local ?? (config.vault.defaultLocation ===
'local')`; vault existence on disk is never consulted and a custom path is
never used. -/
def serviceInitDir (optLocal : Option Bool) (cfg : VaultConfigModel) : VaultDir :=
  if optLocal.getD (decide (cfg.defaultLocation = VaultLocationKind.localLoc))
  then VaultDir.localDir else VaultDir.globalDir

/-- CredentialService.getVaultPath (lines 109-119): local vault if one
exists, else the configured custom path (when `defaultLocation === 'custom'`
and `customPath` is set), else global. -/
def serviceGetVaultPath (hasLocal : Bool) (cfg : VaultConfigModel) : VaultDir :=
  if hasLocal then VaultDir.localDir
  else
    match cfg.defaultLocation, cfg.customPath with
    | VaultLocationKind.customLoc, some p => VaultDir.customDir p
    | _, _ => VaultDir.globalDir

/-- The vault directory used by the credential operations (`add`, `get`,
`list`, `delete`): they run `ensureInitialized`, which calls `init()` with
no options, so the directory is `serviceInitDir none`; the two existence
flags are deliberately unused because `init` never consults them. -/
def serviceOpsDir (_hasLocalVault _hasGlobalVault : Bool) (cfg : VaultConfigModel) :
    VaultDir :=
  serviceInitDir none cfg

/-- CredentialService.initializeVault (lines 67-94): an explicit custom
path wins; otherwise `options.local` selects local, defaulting to global. -/
def initializeVaultDir (optLocal : Option Bool) (customPath : Option String) : VaultDir :=
  match customPath with
  | some p => VaultDir.customDir p
  | none => if optLocal.getD false then VaultDir.localDir else VaultDir.globalDir

/-! ## Theorems -/

/-! ### Quoting lemmas -/

theorem escapeQuotes_cons_quote (t : List Char) :
    escapeQuotes ('"' :: t) = '\\' :: '"' :: escapeQuotes t := by
  simp [escapeQuotes]

theorem escapeQuotes_cons_ne {c : Char} (hc : c ≠ '"') (t : List Char) :
    escapeQuotes (c :: t) = c :: escapeQuotes t := by
  simp [escapeQuotes, hc]

theorem escapeQuotes_eq_nil {cs : List Char} (h : escapeQuotes cs = []) : cs = [] := by
  cases cs with
  | nil => rfl
  | cons c t =>
    by_cases hc : c = '"'
    · subst hc; rw [escapeQuotes_cons_quote] at h; exact absurd h (by simp)
    · rw [escapeQuotes_cons_ne hc] at h; exact absurd h (by simp)

theorem escapeQuotes_head_ne_quote {cs : List Char} {d : Char} {ds : List Char}
    (h : escapeQuotes cs = d :: ds) : d ≠ '"' := by
  cases cs with
  | nil => exact absurd h (by simp [escapeQuotes])
  | cons c t =>
    by_cases hc : c = '"'
    · subst hc
      rw [escapeQuotes_cons_quote] at h
      injection h with h1 h2
      rw [← h1]
      decide
    · rw [escapeQuotes_cons_ne hc] at h
      injection h with h1 h2
      rw [← h1]
      exact hc

theorem unescape_escape (v : List Char) : unescapeQuotes (escapeQuotes v) = v := by
  induction v with
  | nil => rfl
  | cons c cs ih =>
    by_cases hc : c = '"'
    · subst hc
      rw [escapeQuotes_cons_quote]
      show unescapeQuotes ('\\' :: '"' :: escapeQuotes cs) = '"' :: cs
      simp [unescapeQuotes, ih]
    · rw [escapeQuotes_cons_ne hc]
      cases h : escapeQuotes cs with
      | nil =>
        have hcs : cs = [] := escapeQuotes_eq_nil h
        subst hcs
        simp [unescapeQuotes]
      | cons d ds =>
        have hd : d ≠ '"' := escapeQuotes_head_ne_quote h
        show unescapeQuotes (c :: d :: ds) = c :: cs
        simp only [unescapeQuotes]
        rw [if_neg (fun hh => hd hh.2), ← h, ih]

theorem parseValue_of_head_ne {c : Char} (hc : c ≠ '"') (cs : List Char) :
    parseValue (c :: cs) = c :: cs := by
  simp only [parseValue]
  split
  · rename_i rest heq
    injection heq with h1 h2
    exact absurd h1 hc
  · rfl

theorem parseValue_quoted (inner : List Char) :
    parseValue ('"' :: (inner ++ ['"'])) = unescapeQuotes inner := by
  simp only [parseValue, List.getLast?_concat, List.dropLast_concat]

theorem parseValue_quoteValue (v : List Char) : parseValue (quoteValue v) = v := by
  by_cases h : needsQuotes v = true
  · rw [quoteValue, if_pos h, parseValue_quoted, unescape_escape]
  · rw [quoteValue, if_neg h]
    cases v with
    | nil => rfl
    | cons c cs =>
      have hc : c ≠ '"' := by
        intro hceq
        subst hceq
        simp [needsQuotes] at h
      exact parseValue_of_head_ne hc cs

theorem splitAtEq_of_no_eq {k : List Char} (hk : ∀ c ∈ k, c ≠ '=') (rest : List Char) :
    splitAtEq (k ++ '=' :: rest) = some (k, rest) := by
  induction k with
  | nil => simp [splitAtEq]
  | cons c t ih =>
    have hc : c ≠ '=' := hk c (by simp)
    have ht : ∀ c ∈ t, c ≠ '=' := fun d hd => hk d (by simp [hd])
    simp [splitAtEq, hc, ih ht]

/-! ### Env mapping lemmas -/

theorem envGet_append_left {env1 : List (String × String)} {k : String} {v : String}
    (h : envGet env1 k = some v) (env2 : List (String × String)) :
    envGet (env1 ++ env2) k = some v := by
  induction env1 with
  | nil => simp [envGet] at h
  | cons kv rest ih =>
    by_cases hk : kv.1 = k
    · simp only [envGet, if_pos hk] at h
      simp [envGet, if_pos hk, h]
    · simp only [envGet, if_neg hk] at h
      simp [envGet, if_neg hk, ih h]

theorem envGet_eq_none_iff {env : List (String × String)} {k : String} :
    envGet env k = none ↔ ∀ kv ∈ env, kv.1 ≠ k := by
  induction env with
  | nil => simp [envGet]
  | cons kv rest ih =>
    by_cases hk : kv.1 = k
    · simp [envGet, if_pos hk, hk]
    · simp [envGet, if_neg hk, ih, hk]

theorem envGet_append_of_left_none {env1 : List (String × String)} {k : String}
    (h : envGet env1 k = none) (env2 : List (String × String)) :
    envGet (env1 ++ env2) k = envGet env2 k := by
  induction env1 with
  | nil => simp
  | cons kv rest ih =>
    by_cases hk : kv.1 = k
    · simp [envGet, if_pos hk] at h
    · simp only [envGet, if_neg hk] at h
      simp [envGet, if_neg hk, ih h]

theorem envGet_envSet_self (env : List (String × String)) (k v : String) :
    envGet (envSet env k v) k = some v := by
  induction env with
  | nil => simp [envSet, envGet]
  | cons kv rest ih =>
    by_cases hk : kv.1 = k
    · simp [envSet, if_pos hk, envGet]
    · simp [envSet, if_neg hk, envGet, if_neg hk, ih]

theorem envGet_envSet_ne {m k : String} (hne : m ≠ k) (env : List (String × String)) (v : String) :
    envGet (envSet env k v) m = envGet env m := by
  induction env with
  | nil => simp [envSet, envGet, Ne.symm hne]
  | cons kv rest ih =>
    by_cases hk : kv.1 = k
    · have : ¬ (k = m) := fun h => hne h.symm
      simp [envSet, if_pos hk, envGet, this, hk]
    · by_cases hm : kv.1 = m
      · simp [envSet, if_neg hk, envGet, if_pos hm]
      · simp [envSet, if_neg hk, envGet, if_neg hm, ih]

theorem envSet_append_of_none {env1 : List (String × String)} {k : String}
    (h : envGet env1 k = none) (env2 : List (String × String)) (v : String) :
    envSet (env1 ++ env2) k v = env1 ++ envSet env2 k v := by
  induction env1 with
  | nil => simp
  | cons kv rest ih =>
    by_cases hk : kv.1 = k
    · simp [envGet, if_pos hk] at h
    · simp only [envGet, if_neg hk] at h
      simp [envSet, if_neg hk, ih h]

theorem envGet_isSome_of_mem {env : List (String × String)} {kv : String × String}
    (h : kv ∈ env) : (envGet env kv.1).isSome := by
  induction env with
  | nil => simp at h
  | cons kv0 rest ih =>
    by_cases hk : kv0.1 = kv.1
    · simp [envGet, if_pos hk]
    · rcases List.mem_cons.1 h with h' | h'
      · exact absurd (by rw [h']) hk
      · simp only [envGet, if_neg hk]
        exact ih h'

theorem envSet_keys_subset {env : List (String × String)} {k v : String} :
    ∀ kv ∈ envSet env k v, kv.1 = k ∨ kv ∈ env := by
  induction env with
  | nil =>
    intro kv hkv
    simp only [envSet, List.mem_singleton] at hkv
    exact Or.inl (by rw [hkv])
  | cons kv0 rest ih =>
    intro kv hkv
    by_cases hk : kv0.1 = k
    · simp only [envSet, if_pos hk, List.mem_cons] at hkv
      rcases hkv with h | h
      · exact Or.inl (by rw [h])
      · exact Or.inr (List.mem_cons_of_mem _ h)
    · simp only [envSet, if_neg hk, List.mem_cons] at hkv
      rcases hkv with h | h
      · exact Or.inr (by rw [h]; exact List.mem_cons_self _ _)
      · rcases ih kv h with h' | h'
        · exact Or.inl h'
        · exact Or.inr (List.mem_cons_of_mem _ h')

theorem envDelete_of_get_none {env : List (String × String)} {n : String}
    (h : envGet env n = none) : envDelete env n = env := by
  apply List.filter_eq_self.2
  intro kv hkv
  have := envGet_eq_none_iff.1 h kv hkv
  simpa using this

theorem revokeEnv_fold_fst (names : List String) :
    ∀ (env : List (String × String)) (granted : List String),
      (names.foldl
        (fun acc n =>
          if (envGet acc.1 n).isSome then (envDelete acc.1 n, acc.2 ++ [n]) else acc)
        (env, granted)).1
      = names.foldl (fun e n => envDelete e n) env := by
  induction names with
  | nil => intro env granted; rfl
  | cons n t ih =>
    intro env granted
    by_cases h : (envGet env n).isSome
    · simp only [List.foldl_cons, if_pos h]
      exact ih (envDelete env n) (granted ++ [n])
    · have hnone : envGet env n = none := by
        cases heq : envGet env n with
        | none => rfl
        | some v => rw [heq] at h; simp at h
      simp only [List.foldl_cons, if_neg h]
      rw [ih env granted, envDelete_of_get_none hnone]

theorem foldl_envDelete_eq_filter (names : List String) :
    ∀ env : List (String × String),
      names.foldl (fun e n => envDelete e n) env
      = env.filter (fun kv => decide (kv.1 ∉ names)) := by
  induction names with
  | nil => intro env; simp
  | cons n t ih =>
    intro env
    simp only [List.foldl_cons]
    rw [ih (envDelete env n)]
    unfold envDelete
    rw [List.filter_filter]
    apply List.filter_congr
    intro kv _
    by_cases h1 : kv.1 = n <;> by_cases h2 : kv.1 ∈ t <;> simp [h1, h2]

/-- The net document effect of revoke: every requested name is removed from
the mapping, everything else is untouched. -/
theorem revokeEnv_fst_eq_filter (env : List (String × String)) (names : List String) :
    (revokeEnv env names).1 = env.filter (fun kv => decide (kv.1 ∉ names)) := by
  rw [revokeEnv, revokeEnv_fold_fst, foldl_envDelete_eq_filter]

theorem grantEnv_fold_aux (lookup : String → Option String) :
    ∀ (names : List String) (env0 extra : List (String × String)) (granted : List String),
      (∀ n ∈ names, envGet env0 n = none) →
      (∀ kv ∈ extra, kv.1 ∈ granted) →
      (∀ n ∈ granted, envGet (env0 ++ extra) n = lookup n) →
      ∃ extra2 granted2,
        (names.foldl
          (fun acc n =>
            match lookup n with
            | some v => (envSet acc.1 n v, acc.2 ++ [n])
            | none => acc)
          (env0 ++ extra, granted)) = (env0 ++ extra2, granted2) ∧
        (∀ kv ∈ extra2, kv.1 ∈ granted2) ∧
        (∀ n ∈ granted2, n ∈ granted ∨ n ∈ names) ∧
        (∀ n ∈ granted, n ∈ granted2) ∧
        (∀ n ∈ names, (lookup n).isSome → n ∈ granted2) ∧
        (∀ n ∈ granted2, envGet (env0 ++ extra2) n = lookup n) := by
  intro names
  induction names with
  | nil =>
    intro env0 extra granted _ h2 h3
    exact ⟨extra, granted, rfl, h2, fun n hn => Or.inl hn, fun n hn => hn,
      fun n hn => absurd hn (List.not_mem_nil n), h3⟩
  | cons n t ih =>
    intro env0 extra granted h1 h2 h3
    have hn0 : envGet env0 n = none := h1 n (List.mem_cons_self n t)
    have h1t : ∀ m ∈ t, envGet env0 m = none := fun m hm => h1 m (List.mem_cons_of_mem n hm)
    cases hl : lookup n with
    | none =>
      simp only [List.foldl_cons, hl]
      obtain ⟨extra2, granted2, heq, p2, p3, p4, p5, p6⟩ := ih env0 extra granted h1t h2 h3
      refine ⟨extra2, granted2, heq, p2, ?_, p4, ?_, p6⟩
      · intro m hm
        rcases p3 m hm with h | h
        · exact Or.inl h
        · exact Or.inr (List.mem_cons_of_mem n h)
      · intro m hm hsome
        rcases List.mem_cons.1 hm with h | h
        · subst h; rw [hl] at hsome; simp at hsome
        · exact p5 m h hsome
    | some v =>
      simp only [List.foldl_cons, hl]
      rw [envSet_append_of_none hn0]
      have h2' : ∀ kv ∈ envSet extra n v, kv.1 ∈ granted ++ [n] := by
        intro kv hkv
        rcases envSet_keys_subset kv hkv with h | h
        · exact List.mem_append.2 (Or.inr (by simp [h]))
        · exact List.mem_append.2 (Or.inl (h2 kv h))
      have h3' : ∀ m ∈ granted ++ [n], envGet (env0 ++ envSet extra n v) m = lookup m := by
        intro m hm
        by_cases hmn : m = n
        · subst hmn
          rw [envGet_append_of_left_none hn0, envGet_envSet_self, hl]
        · have hmg : m ∈ granted := by
            rcases List.mem_append.1 hm with h | h
            · exact h
            · exact absurd (by simpa using h) hmn
          cases hem : envGet env0 m with
          | some w =>
            have old := h3 m hmg
            rw [envGet_append_left hem] at old
            rw [envGet_append_left hem, old]
          | none =>
            have old := h3 m hmg
            rw [envGet_append_of_left_none hem] at old
            rw [envGet_append_of_left_none hem, envGet_envSet_ne hmn, old]
      obtain ⟨extra2, granted2, heq, p2, p3, p4, p5, p6⟩ :=
        ih env0 (envSet extra n v) (granted ++ [n]) h1t h2' h3'
      refine ⟨extra2, granted2, heq, p2, ?_, ?_, ?_, p6⟩
      · intro m hm
        rcases p3 m hm with h | h
        · rcases List.mem_append.1 h with h' | h'
          · exact Or.inl h'
          · exact Or.inr (by simp at h'; simp [h'])
        · exact Or.inr (List.mem_cons_of_mem n h)
      · intro m hm
        exact p4 m (List.mem_append.2 (Or.inl hm))
      · intro m hm _
        rcases List.mem_cons.1 hm with h | h
        · subst h
          exact p4 m (List.mem_append.2 (Or.inr (by simp)))
        · by_cases hsome : (lookup m).isSome
          · exact p5 m h hsome
          · rcases List.mem_cons.1 hm with h' | h'
            · subst h'; exact p4 m (List.mem_append.2 (Or.inr (by simp)))
            · exact p5 m h' (by assumption)

/-! ## Claim theorems: env quoting and reconciliation -/

/-- C4 counterexample: the value `a#b` contains none of whitespace, quote
characters, backslashes, or `=`, so by the claim it must be written bare;
`stringifyEnv` nevertheless double-quotes it (the source trigger
`/[\s#"'\\]/` also fires on `#`). -/
theorem quoting_trigger_counterexample :
    specQuoteTrigger ['a', '#', 'b'] = false ∧
    needsQuotes ['a', '#', 'b'] = true ∧
    quoteValue ['a', '#', 'b'] = ['"', 'a', '#', 'b', '"'] ∧
    quoteValue ['a', '#', 'b'] ≠ ['a', '#', 'b'] := by
  refine ⟨by decide, by decide, by decide, by decide⟩

/-- C4 (amended): the serializer double-quotes exactly those values
containing whitespace, `#`, quote characters, backslashes, or an embedded
`=` (escaping internal double quotes) and writes all other values bare; and
for every value the written `KEY=value` line re-parses to the original
value byte for byte. -/
theorem quoting_exact_trigger_and_roundtrip (v k : List Char)
    (hk : ∀ c ∈ k, c ≠ '=') :
    (needsQuotes v = true ↔ (specQuoteTrigger v = true ∨ '#' ∈ v)) ∧
    parseValue (quoteValue v) = v ∧
    parseEnvLine (k ++ '=' :: quoteValue v) = some (k, v) := by
  refine ⟨?_, parseValue_quoteValue v, ?_⟩
  · simp only [needsQuotes, specQuoteTrigger, List.any_eq_true]
    constructor
    · rintro ⟨c, hc, hprop⟩
      by_cases hsharp : c = '#'
      · exact Or.inr (hsharp ▸ hc)
      · refine Or.inl ⟨c, hc, ?_⟩
        revert hprop
        simp [hsharp]
    · rintro (⟨c, hc, hprop⟩ | hsharp)
      · refine ⟨c, hc, ?_⟩
        simp only [Bool.or_eq_true] at hprop ⊢
        tauto
      · exact ⟨'#', hsharp, by simp⟩
  · rw [parseEnvLine, splitAtEq_of_no_eq hk]
    simp [parseValue_quoteValue]

/-- C4 witness: the spec's own example value `a "b" c` is quoted with its
internal quotes escaped and round-trips exactly through the written line. -/
theorem quoting_exact_trigger_and_roundtrip_witness :
    (∀ c ∈ ['K'], c ≠ '=') ∧
    (needsQuotes "a \"b\" c".data = true ↔
      (specQuoteTrigger "a \"b\" c".data = true ∨ '#' ∈ "a \"b\" c".data)) ∧
    parseValue (quoteValue "a \"b\" c".data) = "a \"b\" c".data ∧
    parseEnvLine (['K'] ++ '=' :: quoteValue "a \"b\" c".data) =
      some (['K'], "a \"b\" c".data) :=
  ⟨by decide, quoting_exact_trigger_and_roundtrip "a \"b\" c".data ['K'] (by decide)⟩

/-- C5 counterexample: with prior document mapping `FOO=bar, BAZ=old` and
vault value `new` for `BAZ`, granting `["BAZ"]` and then revoking the
granted names removes `BAZ` entirely, so the post-revoke mapping does not
map exactly the pre-grant keys (`BAZ` was a pre-grant key and is gone). -/
theorem grant_revoke_preexisting_key_counterexample :
    envGet [("FOO", "bar"), ("BAZ", "old")] "BAZ" = some "old" ∧
    (grantEnv (fun n => if n = "BAZ" then some "new" else none)
        [("FOO", "bar"), ("BAZ", "old")] ["BAZ"]).2 = ["BAZ"] ∧
    (revokeEnv
        (grantEnv (fun n => if n = "BAZ" then some "new" else none)
          [("FOO", "bar"), ("BAZ", "old")] ["BAZ"]).1
        ["BAZ"]).1 = [("FOO", "bar")] ∧
    envGet
        (revokeEnv
          (grantEnv (fun n => if n = "BAZ" then some "new" else none)
            [("FOO", "bar"), ("BAZ", "old")] ["BAZ"]).1
          ["BAZ"]).1 "BAZ" = none := by
  refine ⟨by decide, by decide, by decide, by decide⟩

/-- C5 (amended): when no requested name is already a key of the prior
mapping, grant preserves every unrelated entry (`FOO=bar` stays), adds the
granted entries with their vault values, and a subsequent revoke of the
granted names restores exactly the pre-grant mapping. -/
theorem grant_then_revoke_frame (lookup : String → Option String)
    (env0 : List (String × String)) (names : List String) (k0 v0 : String)
    (hfo : envGet env0 k0 = some v0)
    (hdisj : ∀ n ∈ names, envGet env0 n = none) :
    envGet (grantEnv lookup env0 names).1 k0 = some v0 ∧
    (∀ n ∈ names, ∀ v, lookup n = some v → envGet (grantEnv lookup env0 names).1 n = some v) ∧
    (revokeEnv (grantEnv lookup env0 names).1 (grantEnv lookup env0 names).2).1 = env0 := by
  have base3 : ∀ n ∈ ([] : List String), envGet (env0 ++ []) n = lookup n := by
    intro n hn
    exact absurd hn (List.not_mem_nil n)
  obtain ⟨extra2, granted2, heq, p2, p3, p4, p5, p6⟩ :=
    grantEnv_fold_aux lookup names env0 [] [] hdisj (by intro kv h; simp at h) base3
  rw [List.append_nil] at heq
  have hres : grantEnv lookup env0 names = (env0 ++ extra2, granted2) := heq
  refine ⟨?_, ?_, ?_⟩
  · rw [hres]
    exact envGet_append_left hfo extra2
  · intro n hn v hv
    rw [hres]
    have hg : n ∈ granted2 := p5 n hn (by rw [hv]; rfl)
    have := p6 n hg
    simp only at this
    rw [this, hv]
  · rw [hres]
    rw [revokeEnv_fst_eq_filter, List.filter_append]
    have henv0 : env0.filter (fun kv => decide (kv.1 ∉ granted2)) = env0 := by
      apply List.filter_eq_self.2
      intro kv hkv
      simp only [decide_eq_true_eq]
      intro hmem
      rcases p3 kv.1 hmem with h | h
      · exact absurd h (List.not_mem_nil kv.1)
      · have := hdisj kv.1 h
        have hsome := envGet_isSome_of_mem hkv
        rw [this] at hsome
        simp at hsome
    have hextra : extra2.filter (fun kv => decide (kv.1 ∉ granted2)) = [] := by
      apply List.filter_eq_nil_iff.2
      intro kv hkv
      simp only [decide_eq_true_eq, Decidable.not_not]
      exact p2 kv hkv
    rw [henv0, hextra, List.append_nil]

/-- C5 witness: with prior mapping `FOO=bar`, granting the fresh name `BAZ`
keeps `FOO=bar`, adds `BAZ=qux`, and revoking `BAZ` restores the mapping. -/
theorem grant_then_revoke_frame_witness :
    envGet [("FOO", "bar")] "FOO" = some "bar" ∧
    (∀ n ∈ ["BAZ"], envGet [("FOO", "bar")] n = none) ∧
    (envGet (grantEnv (fun n => if n = "BAZ" then some "qux" else none)
        [("FOO", "bar")] ["BAZ"]).1 "FOO" = some "bar" ∧
      (∀ n ∈ ["BAZ"], ∀ v, (fun n => if n = "BAZ" then some "qux" else none) n = some v →
        envGet (grantEnv (fun n => if n = "BAZ" then some "qux" else none)
          [("FOO", "bar")] ["BAZ"]).1 n = some v) ∧
      (revokeEnv
          (grantEnv (fun n => if n = "BAZ" then some "qux" else none)
            [("FOO", "bar")] ["BAZ"]).1
          (grantEnv (fun n => if n = "BAZ" then some "qux" else none)
            [("FOO", "bar")] ["BAZ"]).2).1 = [("FOO", "bar")]) :=
  ⟨by decide, by decide,
    grant_then_revoke_frame (fun n => if n = "BAZ" then some "qux" else none)
      [("FOO", "bar")] ["BAZ"] "FOO" "bar" (by decide) (by decide)⟩

theorem stringifyLines_eq_map (env : List (String × String)) :
    stringifyLines env = env.map lineOf := by
  have gen : ∀ (l : List (String × String)) (acc : List (List Char)),
      l.foldl (fun lines kv => lines ++ [lineOf kv]) acc = acc ++ l.map lineOf := by
    intro l
    induction l with
    | nil => intro acc; simp
    | cons kv t ih => intro acc; simp [ih]
  simpa using gen env []

/-- C9: after every successful grant or revoke the rewritten document is
exactly the `KEY=value` lines of the final mapping, one per entry, joined
by newlines with a single trailing newline; comment and blank lines of the
prior document are not preserved, and revoking every key leaves a document
containing only a newline, never a zero-byte file. -/
theorem env_rewrite_canonical_shape :
    (∀ env, stringifyLines env = env.map lineOf) ∧
    (∀ env, stringifyEnvChars env = List.intercalate ['\n'] (env.map lineOf) ++ ['\n']) ∧
    (∀ lookup doc names, (grantDoc lookup doc names).1 =
      stringifyEnvChars (grantEnv lookup
        (match doc with | none => [] | some content => parseEnvDoc content) names).1) ∧
    stringifyEnvChars [] = ['\n'] ∧
    revokeDoc (some "# comment\n\nFOO=bar\n".data) ["FOO"] = some (['\n'], ["FOO"]) ∧
    grantDoc (fun n => if n = "BAZ" then some "qux" else none)
        (some "# note\nFOO=bar\n".data) ["BAZ"] =
      ("FOO=bar\nBAZ=qux\n".data, ["BAZ"]) := by
  refine ⟨stringifyLines_eq_map, ?_, ?_, by decide, by decide, by decide⟩
  · intro env
    rw [stringifyEnvChars, stringifyLines_eq_map]
  · intro lookup doc names
    cases doc <;> rfl

/-- C1 counterexample: a vault file that exists with content that is not a
valid record list (`JSON.parse` fails on it).  The claim demands that
`list()` and `get()` fail with `CorruptVault`; instead `list()` silently
returns the empty list and `get()` returns `ok none` — exactly the "zero
credentials" outcome the claim forbids. -/
theorem corrupt_vault_claim_counterexample :
    rejectAll "not a valid record list" = none ∧
    ("not a valid record list".data.all isEnvSpace) = false ∧
    vaultListRaw rejectAll (some "not a valid record list") = [] ∧
    vaultGetRaw idProvider rejectAll (some "not a valid record list")
        (some "AGE-SECRET-KEY-1") "API_KEY" = Except.ok none := by
  refine ⟨rfl, by decide, by decide, rfl⟩

/-- C1 (amended): a vault file that exists and whose content is not a valid
record list is treated as an empty vault, not an error: every subsequent
`list()` returns the empty list and every `get(name)` returns `ok none`; no
`CorruptVault` error is raised. -/
theorem invalid_vault_content_reads_empty
    (parse : String → Option (List VaultEntry)) (content : String)
    (hbad : parse content = none) :
    vaultListRaw parse (some content) = [] ∧
    (∀ (p : AgeProviderModel) (identity : Option String) (name : String),
      vaultGetRaw p parse (some content) identity name = Except.ok none) := by
  have hread : readVault parse (some content) = [] := by
    rw [readVault]
    by_cases hws : content.data.all isEnvSpace
    · rw [if_pos hws]
    · rw [if_neg hws, hbad]
  constructor
  · rw [vaultListRaw, hread]
    rfl
  · intro p identity name
    rw [vaultGetRaw, hread]
    rfl

/-- C1 witness for the amended theorem at a concrete corrupt file. -/
theorem invalid_vault_content_reads_empty_witness :
    rejectAll "definitely not json" = none ∧
    (vaultListRaw rejectAll (some "definitely not json") = [] ∧
      (∀ (p : AgeProviderModel) (identity : Option String) (name : String),
        vaultGetRaw p rejectAll (some "definitely not json") identity name =
          Except.ok none)) :=
  ⟨rfl, invalid_vault_content_reads_empty rejectAll "definitely not json" rfl⟩

/-- C10: a vault file that exists but is empty or all whitespace is treated
as an empty vault: `list()` is empty, `get(name)` is `ok none` for every
name, and no error is raised (the `!content.trim()` guard short-circuits
before `JSON.parse` runs, for every parse function). -/
theorem blank_vault_file_is_empty
    (parse : String → Option (List VaultEntry)) (content : String)
    (hws : content.data.all isEnvSpace) :
    vaultListRaw parse (some content) = [] ∧
    (∀ (p : AgeProviderModel) (identity : Option String) (name : String),
      vaultGetRaw p parse (some content) identity name = Except.ok none) := by
  have hread : readVault parse (some content) = [] := by
    rw [readVault, if_pos hws]
  constructor
  · rw [vaultListRaw, hread]
    rfl
  · intro p identity name
    rw [vaultGetRaw, hread]
    rfl

/-- C10 witness: a whitespace-only vault file, with a parse function that
would reject it, still reads as an empty vault. -/
theorem blank_vault_file_is_empty_witness :
    ((" \t\n  ".data.all isEnvSpace) = true) ∧
    (vaultListRaw rejectAll (some " \t\n  ") = [] ∧
      (∀ (p : AgeProviderModel) (identity : Option String) (name : String),
        vaultGetRaw p rejectAll (some " \t\n  ") identity name = Except.ok none)) :=
  ⟨by decide, blank_vault_file_is_empty rejectAll " \t\n  " (by decide)⟩

/-! ### Lemmas about first-match replacement -/

theorem replaceFirst_isSome_iff (name : String) (ne : VaultEntry) (l : List VaultEntry) :
    (replaceFirst name ne l).isSome = (l.find? (fun e => e.name == name)).isSome := by
  induction l with
  | nil => rfl
  | cons e rest ih =>
    cases he : (e.name == name) with
    | true =>
      rw [replaceFirst, if_pos he, List.find?_cons_of_pos (p := fun x : VaultEntry => x.name == name) _ he]
      rfl
    | false =>
      rw [replaceFirst, if_neg (by simp [he]),
        List.find?_cons_of_neg (p := fun x : VaultEntry => x.name == name) _ (by simp [he]), ← ih]
      cases replaceFirst name ne rest <;> rfl

theorem replaceFirst_count {name : String} {ne : VaultEntry}
    (hne : (ne.name == name) = true) :
    ∀ {l l' : List VaultEntry}, replaceFirst name ne l = some l' →
      (l'.filter (fun e => e.name == name)).length
        = (l.filter (fun e => e.name == name)).length := by
  intro l
  induction l with
  | nil => intro l' h; exact Option.noConfusion h
  | cons e rest ih =>
    intro l' h
    cases he : (e.name == name) with
    | true =>
      rw [replaceFirst, if_pos he] at h
      cases h
      simp [List.filter_cons, he, hne]
    | false =>
      rw [replaceFirst, if_neg (by simp [he])] at h
      cases hr : replaceFirst name ne rest with
      | none => rw [hr] at h; exact Option.noConfusion h
      | some r' =>
        rw [hr] at h
        rw [Option.map_some'] at h
        cases h
        simp [List.filter_cons, he, ih hr]

theorem replaceFirst_find {name : String} {ne : VaultEntry}
    (hne : (ne.name == name) = true) :
    ∀ {l l' : List VaultEntry}, replaceFirst name ne l = some l' →
      l'.find? (fun e => e.name == name) = some ne := by
  intro l
  induction l with
  | nil => intro l' h; exact Option.noConfusion h
  | cons e rest ih =>
    intro l' h
    cases he : (e.name == name) with
    | true =>
      rw [replaceFirst, if_pos he] at h
      cases h
      exact List.find?_cons_of_pos (p := fun x : VaultEntry => x.name == name) _ hne
    | false =>
      rw [replaceFirst, if_neg (by simp [he])] at h
      cases hr : replaceFirst name ne rest with
      | none => rw [hr] at h; exact Option.noConfusion h
      | some r' =>
        rw [hr] at h
        rw [Option.map_some'] at h
        cases h
        rw [List.find?_cons_of_neg (p := fun x : VaultEntry => x.name == name) _ (by simp [he])]
        exact ih hr

theorem replaceFirst_mem {name : String} {ne : VaultEntry} :
    ∀ {l l' : List VaultEntry}, replaceFirst name ne l = some l' →
      ∀ e ∈ l', e = ne ∨ e ∈ l := by
  intro l
  induction l with
  | nil => intro l' h; exact Option.noConfusion h
  | cons e0 rest ih =>
    intro l' h x hx
    cases he : (e0.name == name) with
    | true =>
      rw [replaceFirst, if_pos he] at h
      cases h
      rcases List.mem_cons.1 hx with h' | h'
      · exact Or.inl h'
      · exact Or.inr (List.mem_cons_of_mem _ h')
    | false =>
      rw [replaceFirst, if_neg (by simp [he])] at h
      cases hr : replaceFirst name ne rest with
      | none => rw [hr] at h; exact Option.noConfusion h
      | some r' =>
        rw [hr] at h
        rw [Option.map_some'] at h
        cases h
        rcases List.mem_cons.1 hx with h' | h'
        · exact Or.inr (by rw [h']; exact List.mem_cons_self _ _)
        · rcases ih hr x h' with h'' | h''
          · exact Or.inl h''
          · exact Or.inr (List.mem_cons_of_mem _ h'')

theorem find?_append_left_none {α : Type} {p : α → Bool} {l1 : List α}
    (h : l1.find? p = none) (l2 : List α) : (l1 ++ l2).find? p = l2.find? p := by
  induction l1 with
  | nil => rfl
  | cons a t ih =>
    have ha : ¬ p a = true := by
      intro hpa
      rw [List.find?_cons_of_pos _ hpa] at h
      exact Option.noConfusion h
    rw [List.find?_cons_of_neg _ ha] at h
    rw [List.cons_append, List.find?_cons_of_neg _ ha]
    exact ih h

theorem replaceFirst_none_of_isSome_false {name : String} {ne : VaultEntry}
    {l : List VaultEntry} (hr : replaceFirst name ne l = none) :
    l.find? (fun e => e.name == name) = none := by
  have h := replaceFirst_isSome_iff name ne l
  rw [hr] at h
  cases hf : l.find? (fun e => e.name == name) with
  | none => rfl
  | some e0 => rw [hf] at h; exact Bool.noConfusion h

/-- Upsert leaves exactly one entry with the target name whenever the prior
entry list had at most one (the Vault Store invariant). -/
theorem upsert_count {name : String} {ne : VaultEntry} (hne : (ne.name == name) = true)
    {l : List VaultEntry} (h : (l.filter (fun e => e.name == name)).length ≤ 1) :
    ((upsert name ne l).filter (fun e => e.name == name)).length = 1 := by
  rw [upsert]
  cases hr : replaceFirst name ne l with
  | some l' =>
    rw [replaceFirst_count hne hr]
    have hsome : (l.find? (fun e => e.name == name)).isSome := by
      rw [← replaceFirst_isSome_iff name ne l, hr]
      rfl
    cases hf : l.find? (fun e => e.name == name) with
    | none => rw [hf] at hsome; exact absurd hsome (by simp)
    | some e0 =>
      have hmem : e0 ∈ l := List.mem_of_find?_eq_some hf
      have hprop : (e0.name == name) = true := by
        have := List.find?_some hf
        simpa using this
      have h1 : e0 ∈ l.filter (fun e => e.name == name) :=
        List.mem_filter.2 ⟨hmem, hprop⟩
      have h2 : 0 < (l.filter (fun e => e.name == name)).length :=
        List.length_pos.2 (List.ne_nil_of_mem h1)
      omega
  | none =>
    have hnone : l.find? (fun e => e.name == name) = none :=
      replaceFirst_none_of_isSome_false hr
    have hfilter : l.filter (fun e => e.name == name) = [] := by
      apply List.filter_eq_nil_iff.2
      intro e he
      exact List.find?_eq_none.1 hnone e he
    rw [List.filter_append, hfilter, List.nil_append]
    simp [List.filter_cons, hne]

/-- After upsert, the first entry with the target name is the new entry. -/
theorem upsert_find {name : String} {ne : VaultEntry} (hne : (ne.name == name) = true)
    (l : List VaultEntry) :
    (upsert name ne l).find? (fun e => e.name == name) = some ne := by
  rw [upsert]
  cases hr : replaceFirst name ne l with
  | some l' => exact replaceFirst_find hne hr
  | none =>
    have hnone : l.find? (fun e => e.name == name) = none :=
      replaceFirst_none_of_isSome_false hr
    rw [find?_append_left_none hnone]
    exact List.find?_cons_of_pos (p := fun x : VaultEntry => x.name == name) _ hne

theorem upsert_mem {name : String} {ne : VaultEntry} {l : List VaultEntry} :
    ∀ e ∈ upsert name ne l, e = ne ∨ e ∈ l := by
  intro e he
  rw [upsert] at he
  cases hr : replaceFirst name ne l with
  | some l' =>
    rw [hr] at he
    exact replaceFirst_mem hr e he
  | none =>
    rw [hr] at he
    rcases List.mem_append.1 he with h | h
    · exact Or.inr h
    · exact Or.inl (by simpa using h)

/-- When every entry's metadata carries the entry's own name (the Vault
Store invariant), listing preserves the per-name record count. -/
theorem listMeta_filter_count {name : String} :
    ∀ {l : List VaultEntry}, (∀ e ∈ l, ∀ m, e.metadata = some m → m.name = e.name) →
      ((l.map listEntryMeta).filter (fun m => m.name == name)).length
        = (l.filter (fun e => e.name == name)).length := by
  intro l
  induction l with
  | nil => intro _; rfl
  | cons e rest ih =>
    intro hwf
    have hname : (listEntryMeta e).name = e.name := by
      cases hm : e.metadata with
      | none => rw [listEntryMeta, hm]
      | some m => rw [listEntryMeta, hm]; exact hwf e (List.mem_cons_self _ _) m hm
    have hrest := ih (fun x hx => hwf x (List.mem_cons_of_mem _ hx))
    simp only [List.map_cons, List.filter_cons, hname]
    cases hp : (e.name == name) with
    | true => simp [hp, hrest]
    | false => simp [hp, hrest]

theorem applyPatch_empty (m : CredentialMetadata) : applyPatch m emptyPatch = m := rfl

theorem localSet_ok (p : AgeProviderModel) (now : Nat) (st : LocalVaultState)
    (name value : String) (patch : MetadataPatch) (pub : String)
    (hrec : st.recipient = some pub) :
    localSet p now st name value patch = Except.ok
      { st with vault := some (upsert name
          (mkSetEntry p pub now name value patch (st.vault.getD []))
          (st.vault.getD [])) } := by
  simp only [localSet, hrec]

theorem localGet_of_find (p : AgeProviderModel) (st : LocalVaultState) (name : String)
    (e : VaultEntry) (priv v : String)
    (hfind : (st.vault.getD []).find? (fun x => x.name == name) = some e)
    (hid : st.identity = some priv)
    (hdec : p.decrypt e.encryptedValue priv = some v) :
    localGet p st name = Except.ok
      (some { name := e.name, value := v, source := "local", metadata := e.metadata }) := by
  simp only [localGet, hfind, hid, hdec]

theorem recMeta_of_find (st : LocalVaultState) (name : String) (e : VaultEntry)
    (hfind : (st.vault.getD []).find? (fun x => x.name == name) = some e) :
    recMeta st name = e.metadata := by
  simp only [recMeta, hfind, Option.some_bind]

theorem setBaseMeta_createdAt_of_find (now : Nat) (name : String)
    (entries : List VaultEntry) (e : VaultEntry)
    (hfind : entries.find? (fun x => x.name == name) = some e) :
    (setBaseMeta now name entries).createdAt = e.metadata.bind (fun m => m.createdAt) := by
  simp only [setBaseMeta, hfind]

/-- C2: after `set(name, v1)` then `set(name, v2)` (on any vault whose
entry list respects the store invariants: at most one record per name,
metadata names matching entry names), `list()` contains exactly one record
named `name`, `get(name)` succeeds with value `v2`, the record's
`createdAt` is unchanged from the state after the first set, and
`updatedAt` is the timestamp of the second set. -/
theorem set_twice_overwrites_in_place (p : AgeProviderModel) (st : LocalVaultState)
    (name v1 v2 : String) (t1 t2 : Nat) (pub priv : String)
    (hrec : st.recipient = some pub)
    (hid : st.identity = some priv)
    (hdec : p.decrypt (p.encrypt v2 pub) priv = some v2)
    (huniq : ((st.vault.getD []).filter (fun e => e.name == name)).length ≤ 1)
    (hwf : ∀ e ∈ st.vault.getD [], ∀ m, e.metadata = some m → m.name = e.name) :
    ∃ st1 st2,
      localSet p t1 st name v1 emptyPatch = Except.ok st1 ∧
      localSet p t2 st1 name v2 emptyPatch = Except.ok st2 ∧
      ((st2.vault.getD []).filter (fun e => e.name == name)).length = 1 ∧
      ((localList st2).filter (fun m => m.name == name)).length = 1 ∧
      (∃ c, localGet p st2 name = Except.ok (some c) ∧ c.name = name ∧ c.value = v2) ∧
      (∃ m2 m1, recMeta st2 name = some m2 ∧ recMeta st1 name = some m1 ∧
        m2.createdAt = m1.createdAt ∧ m2.updatedAt = some t2) := by
  have hne1 : ((mkSetEntry p pub t1 name v1 emptyPatch (st.vault.getD [])).name == name)
      = true := by simp [mkSetEntry]
  have hne2 : ((mkSetEntry p pub t2 name v2 emptyPatch
      (upsert name (mkSetEntry p pub t1 name v1 emptyPatch (st.vault.getD []))
        (st.vault.getD []))).name == name) = true := by simp [mkSetEntry]
  have hcount1 : ((upsert name (mkSetEntry p pub t1 name v1 emptyPatch (st.vault.getD []))
      (st.vault.getD [])).filter (fun e => e.name == name)).length = 1 :=
    upsert_count hne1 huniq
  have hfind1 : (upsert name (mkSetEntry p pub t1 name v1 emptyPatch (st.vault.getD []))
      (st.vault.getD [])).find? (fun e => e.name == name)
      = some (mkSetEntry p pub t1 name v1 emptyPatch (st.vault.getD [])) :=
    upsert_find hne1 _
  have hcount2 : ((upsert name (mkSetEntry p pub t2 name v2 emptyPatch
      (upsert name (mkSetEntry p pub t1 name v1 emptyPatch (st.vault.getD []))
        (st.vault.getD [])))
      (upsert name (mkSetEntry p pub t1 name v1 emptyPatch (st.vault.getD []))
        (st.vault.getD []))).filter (fun e => e.name == name)).length = 1 :=
    upsert_count hne2 (le_of_eq hcount1)
  have hfind2 : (upsert name (mkSetEntry p pub t2 name v2 emptyPatch
      (upsert name (mkSetEntry p pub t1 name v1 emptyPatch (st.vault.getD []))
        (st.vault.getD [])))
      (upsert name (mkSetEntry p pub t1 name v1 emptyPatch (st.vault.getD []))
        (st.vault.getD []))).find? (fun e => e.name == name)
      = some (mkSetEntry p pub t2 name v2 emptyPatch
        (upsert name (mkSetEntry p pub t1 name v1 emptyPatch (st.vault.getD []))
          (st.vault.getD []))) :=
    upsert_find hne2 _
  have hwf1 : ∀ e ∈ upsert name (mkSetEntry p pub t1 name v1 emptyPatch (st.vault.getD []))
      (st.vault.getD []), ∀ m, e.metadata = some m → m.name = e.name := by
    intro e he m hm
    rcases upsert_mem e he with h | h
    · subst h
      simp only [mkSetEntry] at hm
      injection hm with hm'
      rw [← hm']
      rfl
    · exact hwf e h m hm
  have hwf2 : ∀ e ∈ upsert name (mkSetEntry p pub t2 name v2 emptyPatch
      (upsert name (mkSetEntry p pub t1 name v1 emptyPatch (st.vault.getD []))
        (st.vault.getD [])))
      (upsert name (mkSetEntry p pub t1 name v1 emptyPatch (st.vault.getD []))
        (st.vault.getD [])), ∀ m, e.metadata = some m → m.name = e.name := by
    intro e he m hm
    rcases upsert_mem e he with h | h
    · subst h
      simp only [mkSetEntry] at hm
      injection hm with hm'
      rw [← hm']
      rfl
    · exact hwf1 e h m hm
  refine ⟨_, _, localSet_ok p t1 st name v1 emptyPatch pub hrec,
    localSet_ok p t2 _ name v2 emptyPatch pub hrec, hcount2, ?_, ?_, ?_⟩
  · exact (listMeta_filter_count hwf2).trans hcount2
  · exact ⟨_, localGet_of_find p _ name _ priv v2 hfind2 hid hdec, rfl, rfl⟩
  · refine ⟨setBaseMeta t2 name (upsert name
        (mkSetEntry p pub t1 name v1 emptyPatch (st.vault.getD [])) (st.vault.getD [])),
      setBaseMeta t1 name (st.vault.getD []), ?_, ?_, ?_, rfl⟩
    · exact recMeta_of_find
        { st with vault := some (upsert name (mkSetEntry p pub t2 name v2 emptyPatch
      (upsert name (mkSetEntry p pub t1 name v1 emptyPatch (st.vault.getD []))
        (st.vault.getD [])))
      (upsert name (mkSetEntry p pub t1 name v1 emptyPatch (st.vault.getD []))
        (st.vault.getD []))) } name (mkSetEntry p pub t2 name v2 emptyPatch
      (upsert name (mkSetEntry p pub t1 name v1 emptyPatch (st.vault.getD []))
        (st.vault.getD []))) hfind2
    · exact recMeta_of_find
        { st with vault := some (upsert name (mkSetEntry p pub t1 name v1 emptyPatch (st.vault.getD []))
        (st.vault.getD [])) } name
        (mkSetEntry p pub t1 name v1 emptyPatch (st.vault.getD [])) hfind1
    · exact setBaseMeta_createdAt_of_find t2 name (upsert name (mkSetEntry p pub t1 name v1 emptyPatch (st.vault.getD []))
        (st.vault.getD []))
        (mkSetEntry p pub t1 name v1 emptyPatch (st.vault.getD [])) hfind1

/-- C2 witness: two sets of the same name on a freshly initialized (empty)
vault, with an identity encryption capability and timestamps 0 and 1. -/
theorem set_twice_overwrites_in_place_witness :
    idProvider.decrypt (idProvider.encrypt "b" "pk") "sk" = some "b" ∧
    ((((⟨some "sk", some "pk", some []⟩ : LocalVaultState).vault.getD []).filter
      (fun e => e.name == "K")).length ≤ 1) ∧
    (∃ st1 st2,
      localSet idProvider 0 ⟨some "sk", some "pk", some []⟩ "K" "a" emptyPatch
        = Except.ok st1 ∧
      localSet idProvider 1 st1 "K" "b" emptyPatch = Except.ok st2 ∧
      ((st2.vault.getD []).filter (fun e => e.name == "K")).length = 1 ∧
      ((localList st2).filter (fun m => m.name == "K")).length = 1 ∧
      (∃ c, localGet idProvider st2 "K" = Except.ok (some c) ∧ c.name = "K" ∧ c.value = "b") ∧
      (∃ m2 m1, recMeta st2 "K" = some m2 ∧ recMeta st1 "K" = some m1 ∧
        m2.createdAt = m1.createdAt ∧ m2.updatedAt = some 1)) :=
  ⟨rfl, by decide,
    set_twice_overwrites_in_place idProvider ⟨some "sk", some "pk", some []⟩
      "K" "a" "b" 0 1 "pk" "sk" rfl rfl rfl (by decide)
      (fun e he => absurd he (List.not_mem_nil e))⟩

theorem getAllLoop_error_of_exists (p : AgeProviderModel) (priv : String) :
    ∀ {entries : List VaultEntry},
      (∃ e ∈ entries, p.decrypt e.encryptedValue priv = none) →
      getAllLoop p priv entries = Except.error VaultError.decryptionFailed := by
  intro entries
  induction entries with
  | nil => rintro ⟨e, he, _⟩; exact absurd he (List.not_mem_nil e)
  | cons e rest ih =>
    rintro ⟨x, hx, hxd⟩
    cases hd : p.decrypt e.encryptedValue priv with
    | none => simp only [getAllLoop, hd]
    | some v =>
      have hxrest : x ∈ rest := by
        rcases List.mem_cons.1 hx with h | h
        · subst h; rw [hd] at hxd; exact Option.noConfusion hxd
        · exact h
      rw [getAllLoop, hd]
      rw [ih ⟨x, hxrest, hxd⟩]

theorem getAllLoop_ok_of_all (p : AgeProviderModel) (priv : String) :
    ∀ {entries : List VaultEntry},
      (∀ e ∈ entries, (p.decrypt e.encryptedValue priv).isSome) →
      getAllLoop p priv entries = Except.ok (entries.map fun e =>
        { name := e.name, value := (p.decrypt e.encryptedValue priv).getD "",
          source := "local", metadata := e.metadata }) := by
  intro entries
  induction entries with
  | nil => intro _; rfl
  | cons e rest ih =>
    intro hall
    have hs := hall e (List.mem_cons_self _ _)
    cases hd : p.decrypt e.encryptedValue priv with
    | none => rw [hd] at hs; exact absurd hs (by simp)
    | some v =>
      rw [getAllLoop, hd, ih (fun x hx => hall x (List.mem_cons_of_mem _ hx))]
      simp [hd]

/-- C3 counterexample: a vault with an undecryptable first record and a
perfectly decryptable second record.  The claim requires `getAll()` to
still produce the second credential and report the failing name; instead
the whole operation fails with the first decryption error, returning no
credentials at all (its result type carries no partial results). -/
theorem getAll_abort_counterexample :
    flakyProvider.decrypt "sk-2" "sk" = some "sk-2" ∧
    localGetAll flakyProvider
      ⟨some "sk", some "pk",
        some [⟨"A", "UNDECRYPTABLE", none⟩, ⟨"B", "sk-2", none⟩]⟩
      = Except.error VaultError.decryptionFailed := by
  constructor
  · rfl
  · rfl

/-- C3 (amended): `getAll()` is all-or-nothing: if any record's ciphertext
fails to decrypt, the whole operation fails with `DecryptionFailed`
(aborting the batch); it returns the full credential list only when every
record decrypts. -/
theorem getAll_all_or_nothing (p : AgeProviderModel) (st : LocalVaultState) (priv : String)
    (hid : st.identity = some priv) :
    ((∃ e ∈ st.vault.getD [], p.decrypt e.encryptedValue priv = none) →
      localGetAll p st = Except.error VaultError.decryptionFailed) ∧
    ((∀ e ∈ st.vault.getD [], (p.decrypt e.encryptedValue priv).isSome) →
      localGetAll p st = Except.ok ((st.vault.getD []).map fun e =>
        { name := e.name, value := (p.decrypt e.encryptedValue priv).getD "",
          source := "local", metadata := e.metadata })) := by
  constructor
  · intro hex
    rw [localGetAll, hid]
    exact getAllLoop_error_of_exists p priv hex
  · intro hall
    rw [localGetAll, hid]
    exact getAllLoop_ok_of_all p priv hall

/-- C3 witness for the amended theorem, on the counterexample vault. -/
theorem getAll_all_or_nothing_witness :
    ((⟨some "sk", some "pk",
        some [⟨"A", "UNDECRYPTABLE", none⟩, ⟨"B", "sk-2", none⟩]⟩ :
      LocalVaultState).identity = some "sk") ∧
    (((∃ e ∈ ((⟨some "sk", some "pk",
          some [⟨"A", "UNDECRYPTABLE", none⟩, ⟨"B", "sk-2", none⟩]⟩ :
        LocalVaultState).vault.getD []),
        flakyProvider.decrypt e.encryptedValue "sk" = none) →
      localGetAll flakyProvider
        ⟨some "sk", some "pk",
          some [⟨"A", "UNDECRYPTABLE", none⟩, ⟨"B", "sk-2", none⟩]⟩
        = Except.error VaultError.decryptionFailed) ∧
    ((∀ e ∈ ((⟨some "sk", some "pk",
          some [⟨"A", "UNDECRYPTABLE", none⟩, ⟨"B", "sk-2", none⟩]⟩ :
        LocalVaultState).vault.getD []),
        (flakyProvider.decrypt e.encryptedValue "sk").isSome) →
      localGetAll flakyProvider
        ⟨some "sk", some "pk",
          some [⟨"A", "UNDECRYPTABLE", none⟩, ⟨"B", "sk-2", none⟩]⟩
        = Except.ok (((⟨some "sk", some "pk",
            some [⟨"A", "UNDECRYPTABLE", none⟩, ⟨"B", "sk-2", none⟩]⟩ :
          LocalVaultState).vault.getD []).map fun e =>
          { name := e.name, value := (flakyProvider.decrypt e.encryptedValue "sk").getD "",
            source := "local", metadata := e.metadata }))) :=
  ⟨rfl, getAll_all_or_nothing flakyProvider
    ⟨some "sk", some "pk",
      some [⟨"A", "UNDECRYPTABLE", none⟩, ⟨"B", "sk-2", none⟩]⟩ "sk" rfl⟩

/-! ### Registry lemmas -/

theorem firstHit_eq_none_iff (name : String) :
    ∀ l : List CSource, firstHit name l = none ↔ ∀ s ∈ l, s.get name = none := by
  intro l
  induction l with
  | nil => simp [firstHit]
  | cons s rest ih =>
    cases hg : s.get name with
    | some c =>
      simp only [firstHit, hg]
      constructor
      · intro h; exact Option.noConfusion h
      · intro h
        have := h s (List.mem_cons_self _ _)
        rw [hg] at this
        exact Option.noConfusion this
    | none =>
      simp only [firstHit, hg, ih]
      constructor
      · intro h x hx
        rcases List.mem_cons.1 hx with h' | h'
        · rw [h']; exact hg
        · exact h x h'
      · intro h x hx
        exact h x (List.mem_cons_of_mem _ hx)

theorem dedupFirst_subset {x : CredentialMetadata} :
    ∀ {seen : List String} {l : List CredentialMetadata},
      x ∈ dedupFirst seen l → x ∈ l := by
  intro seen l
  induction l generalizing seen with
  | nil => intro h; exact absurd h (List.not_mem_nil x)
  | cons m rest ih =>
    intro h
    by_cases hm : m.name ∈ seen
    · rw [dedupFirst, if_pos hm] at h
      exact List.mem_cons_of_mem _ (ih h)
    · rw [dedupFirst, if_neg hm] at h
      rcases List.mem_cons.1 h with h' | h'
      · rw [h']; exact List.mem_cons_self _ _
      · exact List.mem_cons_of_mem _ (ih h')

theorem dedupFirst_not_seen {x : CredentialMetadata} :
    ∀ {seen : List String} {l : List CredentialMetadata},
      x ∈ dedupFirst seen l → x.name ∉ seen := by
  intro seen l
  induction l generalizing seen with
  | nil => intro h; exact absurd h (List.not_mem_nil x)
  | cons m rest ih =>
    intro h
    by_cases hm : m.name ∈ seen
    · rw [dedupFirst, if_pos hm] at h
      exact ih h
    · rw [dedupFirst, if_neg hm] at h
      rcases List.mem_cons.1 h with h' | h'
      · rw [h']; exact hm
      · intro hx
        exact ih h' (List.mem_cons_of_mem _ hx)

theorem dedupFirst_nodup_names :
    ∀ {seen : List String} {l : List CredentialMetadata},
      ((dedupFirst seen l).map (fun m => m.name)).Nodup := by
  intro seen l
  induction l generalizing seen with
  | nil => simp [dedupFirst]
  | cons m rest ih =>
    by_cases hm : m.name ∈ seen
    · rw [dedupFirst, if_pos hm]
      exact ih
    · rw [dedupFirst, if_neg hm]
      rw [List.map_cons, List.nodup_cons]
      refine ⟨?_, ih⟩
      intro hmem
      rcases List.mem_map.1 hmem with ⟨x, hx, hxn⟩
      have := dedupFirst_not_seen hx
      rw [hxn] at this
      exact this (List.mem_cons_self _ _)

theorem dedupFirst_mem_names {nm : String} :
    ∀ {seen : List String} {l : List CredentialMetadata},
      nm ∉ seen → (∃ x ∈ l, x.name = nm) →
      ∃ x ∈ dedupFirst seen l, x.name = nm := by
  intro seen l
  induction l generalizing seen with
  | nil => rintro _ ⟨x, hx, _⟩; exact absurd hx (List.not_mem_nil x)
  | cons m rest ih =>
    rintro hns ⟨x, hx, hxn⟩
    by_cases hm : m.name ∈ seen
    · rw [dedupFirst, if_pos hm]
      have hxr : x ∈ rest := by
        rcases List.mem_cons.1 hx with h' | h'
        · rw [h'] at hxn; rw [hxn] at hm; exact absurd hm hns
        · exact h'
      exact ih hns ⟨x, hxr, hxn⟩
    · rw [dedupFirst, if_neg hm]
      by_cases hxm : m.name = nm
      · exact ⟨m, List.mem_cons_self _ _, hxm⟩
      · have hxr : x ∈ rest := by
          rcases List.mem_cons.1 hx with h' | h'
          · rw [h'] at hxn; exact absurd hxn hxm
          · exact h'
        have hns' : nm ∉ m.name :: seen := by
          intro h
          rcases List.mem_cons.1 h with h' | h'
          · exact hxm h'.symm
          · exact hns h'
        obtain ⟨y, hy, hyn⟩ := ih hns' ⟨x, hxr, hxn⟩
        exact ⟨y, List.mem_cons_of_mem _ hy, hyn⟩

theorem dedupFirst_first_occurrence {nm : String} :
    ∀ {seen : List String} {l1 l2 : List CredentialMetadata} {x : CredentialMetadata},
      (∃ y ∈ l1, y.name = nm) → x ∈ dedupFirst seen (l1 ++ l2) → x.name = nm →
      x ∈ l1 := by
  intro seen l1
  induction l1 generalizing seen with
  | nil => rintro l2 x ⟨y, hy, _⟩; exact absurd hy (List.not_mem_nil y)
  | cons m rest ih =>
    rintro l2 x ⟨y, hy, hyn⟩ hx hxn
    by_cases hm : m.name ∈ seen
    · rw [List.cons_append, dedupFirst, if_pos hm] at hx
      by_cases hmn : m.name = nm
      · exfalso
        have := dedupFirst_not_seen hx
        rw [hxn] at this
        rw [hmn] at hm
        exact this hm
      · have hyr : y ∈ rest := by
          rcases List.mem_cons.1 hy with h' | h'
          · rw [h'] at hyn; exact absurd hyn hmn
          · exact h'
        exact List.mem_cons_of_mem _ (ih ⟨y, hyr, hyn⟩ hx hxn)
    · rw [List.cons_append, dedupFirst, if_neg hm] at hx
      rcases List.mem_cons.1 hx with h' | h'
      · rw [h']; exact List.mem_cons_self _ _
      · by_cases hmn : m.name = nm
        · exfalso
          have := dedupFirst_not_seen h'
          rw [hxn, ← hmn] at this
          exact this (List.mem_cons_self _ _)
        · have hyr : y ∈ rest := by
            rcases List.mem_cons.1 hy with h'' | h''
            · rw [h''] at hyn; exact absurd hyn hmn
            · exact h''
          exact List.mem_cons_of_mem _ (ih ⟨y, hyr, hyn⟩ h' hxn)

theorem filter_name_count_eq_one {l : List CredentialMetadata} {nm : String}
    (hnd : (l.map (fun m => m.name)).Nodup) (hex : ∃ x ∈ l, x.name = nm) :
    (l.filter (fun x => x.name == nm)).length = 1 := by
  induction l with
  | nil => obtain ⟨x, hx, _⟩ := hex; exact absurd hx (List.not_mem_nil x)
  | cons m rest ih =>
    rw [List.map_cons, List.nodup_cons] at hnd
    by_cases hm : m.name = nm
    · have hrest : rest.filter (fun x => x.name == nm) = [] := by
        apply List.filter_eq_nil_iff.2
        intro x hx
        simp only [beq_iff_eq]
        intro hxn
        exact hnd.1 (List.mem_map.2 ⟨x, hx, by rw [hxn, hm]⟩)
      simp [List.filter_cons, hm, hrest]
    · obtain ⟨x, hx, hxn⟩ := hex
      have hxr : x ∈ rest := by
        rcases List.mem_cons.1 hx with h' | h'
        · rw [h'] at hxn; exact absurd hxn hm
        · exact h'
      have := ih hnd.2 ⟨x, hxr, hxn⟩
      simp [List.filter_cons, hm, this]

/-- C6: with two available backends both reporting the same name and
distinct priorities, `get` resolves from the backend with the lower
priority number regardless of registration order (`null` only when no
available backend has the name), and `list` contains the name exactly once,
its entry taken from the backend that sorts first. -/
theorem registry_priority_first_match (s1 s2 : CSource) (name : String)
    (c1 c2 : Credential) (m1 : CredentialMetadata)
    (ha1 : s1.avail = true) (ha2 : s2.avail = true)
    (hp : s1.priority < s2.priority)
    (hg1 : s1.get name = some c1) (_hg2 : s2.get name = some c2)
    (hm1 : m1 ∈ s1.list) (hm1n : m1.name = name)
    (_hm2 : ∃ m ∈ s2.list, m.name = name) :
    registryGet [s1, s2] name = some c1 ∧
    registryGet [s2, s1] name = some c1 ∧
    (∀ srcs : List CSource, registryGet srcs name = none ↔
      ∀ s ∈ availableSources srcs, s.get name = none) ∧
    ((registryList [s1, s2]).filter (fun x => x.name == name)).length = 1 ∧
    ((registryList [s2, s1]).filter (fun x => x.name == name)).length = 1 ∧
    (∀ x ∈ registryList [s2, s1], x.name = name → x ∈ s1.list) := by
  have hav12 : availableSources [s1, s2] = [s1, s2] := by
    simp [availableSources, ha1, ha2, List.insertionSort, List.orderedInsert,
      Nat.le_of_lt hp]
  have hav21 : availableSources [s2, s1] = [s1, s2] := by
    simp [availableSources, ha1, ha2, List.insertionSort, List.orderedInsert,
      Nat.not_le.2 hp]
  have hexists : ∃ x ∈ s1.list ++ (s2.list ++ []), x.name = name :=
    ⟨m1, List.mem_append.2 (Or.inl hm1), hm1n⟩
  have hl12 : registryList [s1, s2] = dedupFirst [] (s1.list ++ (s2.list ++ [])) := by
    rw [registryList, hav12]
    rfl
  have hl21 : registryList [s2, s1] = dedupFirst [] (s1.list ++ (s2.list ++ [])) := by
    rw [registryList, hav21]
    rfl
  have hcount : ((dedupFirst [] (s1.list ++ (s2.list ++ []))).filter
      (fun x => x.name == name)).length = 1 := by
    apply filter_name_count_eq_one dedupFirst_nodup_names
    exact dedupFirst_mem_names (List.not_mem_nil name) hexists
  refine ⟨?_, ?_, ?_, ?_, ?_, ?_⟩
  · rw [registryGet, hav12]
    simp only [firstHit, hg1]
  · rw [registryGet, hav21]
    simp only [firstHit, hg1]
  · intro srcs
    rw [registryGet]
    exact firstHit_eq_none_iff name (availableSources srcs)
  · rw [hl12]; exact hcount
  · rw [hl21]; exact hcount
  · intro x hx hxn
    rw [hl21] at hx
    exact dedupFirst_first_occurrence ⟨m1, hm1, hm1n⟩ hx hxn

/-- C6 witness: two concrete backends, the local one at priority 1, a
secondary one at priority 5, both reporting `API_KEY`. -/
theorem registry_priority_first_match_witness :
    ((⟨"local", 1, true, fun n => if n = "API_KEY"
        then some ⟨"API_KEY", "v-local", "local", none⟩ else none,
      [⟨"API_KEY", none, none, none, []⟩], true, fun _ => true⟩ : CSource).avail = true) ∧
    (1 < 5) ∧
    (registryGet
        [⟨"backup", 5, true, fun n => if n = "API_KEY"
            then some ⟨"API_KEY", "v-backup", "backup", none⟩ else none,
          [⟨"API_KEY", none, none, none, []⟩], true, fun _ => true⟩,
         ⟨"local", 1, true, fun n => if n = "API_KEY"
            then some ⟨"API_KEY", "v-local", "local", none⟩ else none,
          [⟨"API_KEY", none, none, none, []⟩], true, fun _ => true⟩] "API_KEY"
      = some ⟨"API_KEY", "v-local", "local", none⟩) ∧
    ((registryList
        [⟨"backup", 5, true, fun n => if n = "API_KEY"
            then some ⟨"API_KEY", "v-backup", "backup", none⟩ else none,
          [⟨"API_KEY", none, none, none, []⟩], true, fun _ => true⟩,
         ⟨"local", 1, true, fun n => if n = "API_KEY"
            then some ⟨"API_KEY", "v-local", "local", none⟩ else none,
          [⟨"API_KEY", none, none, none, []⟩], true, fun _ => true⟩]).filter
      (fun x => x.name == "API_KEY")).length = 1 :=
  ⟨rfl, by decide,
    (registry_priority_first_match
      ⟨"local", 1, true, fun n => if n = "API_KEY"
          then some ⟨"API_KEY", "v-local", "local", none⟩ else none,
        [⟨"API_KEY", none, none, none, []⟩], true, fun _ => true⟩
      ⟨"backup", 5, true, fun n => if n = "API_KEY"
          then some ⟨"API_KEY", "v-backup", "backup", none⟩ else none,
        [⟨"API_KEY", none, none, none, []⟩], true, fun _ => true⟩
      "API_KEY"
      ⟨"API_KEY", "v-local", "local", none⟩
      ⟨"API_KEY", "v-backup", "backup", none⟩
      ⟨"API_KEY", none, none, none, []⟩
      rfl rfl (by decide) rfl rfl (List.mem_cons_self _ _) rfl
      ⟨⟨"API_KEY", none, none, none, []⟩, List.mem_cons_self _ _, rfl⟩).2.1,
    (registry_priority_first_match
      ⟨"local", 1, true, fun n => if n = "API_KEY"
          then some ⟨"API_KEY", "v-local", "local", none⟩ else none,
        [⟨"API_KEY", none, none, none, []⟩], true, fun _ => true⟩
      ⟨"backup", 5, true, fun n => if n = "API_KEY"
          then some ⟨"API_KEY", "v-backup", "backup", none⟩ else none,
        [⟨"API_KEY", none, none, none, []⟩], true, fun _ => true⟩
      "API_KEY"
      ⟨"API_KEY", "v-local", "local", none⟩
      ⟨"API_KEY", "v-backup", "backup", none⟩
      ⟨"API_KEY", none, none, none, []⟩
      rfl rfl (by decide) rfl rfl (List.mem_cons_self _ _) rfl
      ⟨⟨"API_KEY", none, none, none, []⟩, List.mem_cons_self _ _, rfl⟩).2.2.2.2.1⟩

/-- C7: deletion without a source id is best-effort everywhere: the fold
invokes `delete` on exactly the available backends that support deletion
(in priority order, not stopping at the first hit), and the returned flag
is true iff at least one of them removed the name. -/
theorem registry_delete_best_effort (srcs : List CSource) (name : String) :
    (registryDeleteAll srcs name).2
      = ((availableSources srcs).filter (fun s => s.canDelete)).map (fun s => s.id) ∧
    ((registryDeleteAll srcs name).1 = true ↔
      ∃ s ∈ availableSources srcs, s.canDelete = true ∧ s.del name = true) := by
  have aux : ∀ (l : List CSource) (b : Bool) (tr : List String),
      l.foldl (fun acc s => if s.canDelete
          then (acc.1 || s.del name, acc.2 ++ [s.id]) else acc) (b, tr)
      = (b || l.any (fun s => s.canDelete && s.del name),
         tr ++ (l.filter (fun s => s.canDelete)).map (fun s => s.id)) := by
    intro l
    induction l with
    | nil => intro b tr; simp
    | cons s t ih =>
      intro b tr
      cases hc : s.canDelete with
      | true =>
        simp only [List.foldl_cons, if_pos rfl, ih, List.any_cons, List.filter_cons,
          hc, List.map_cons, Bool.true_and, if_pos trivial]
        rw [Bool.or_assoc, List.append_assoc]
        rfl
      | false =>
        simp only [List.foldl_cons, hc, List.any_cons, List.filter_cons,
          Bool.false_and, Bool.false_or, if_neg Bool.false_ne_true, ih]
  have main : registryDeleteAll srcs name
      = (false || (availableSources srcs).any (fun s => s.canDelete && s.del name),
         [] ++ ((availableSources srcs).filter (fun s => s.canDelete)).map
           (fun s => s.id)) :=
    aux (availableSources srcs) false []
  rw [main]
  constructor
  · simp
  · simp [List.any_eq_true, Bool.and_eq_true]

/-- C8 counterexample: both a local and a global vault exist and the
configuration is the default (`defaultLocation = 'global'`, the case where
no config file was ever written).  `getVaultPath()` resolves the local
directory, but the credential operations construct their backend on the
global directory — they do not operate on the local vault. -/
theorem active_vault_resolution_counterexample :
    serviceOpsDir true true defaultVaultConfig = VaultDir.globalDir ∧
    serviceOpsDir true true defaultVaultConfig ≠ VaultDir.localDir ∧
    serviceGetVaultPath true defaultVaultConfig = VaultDir.localDir := by
  refine ⟨rfl, by decide, rfl⟩

/-- C8 (amended): `getVaultPath` resolves local over custom-if-configured
over global; but the vault the credential operations actually operate on is
selected by `config.vault.defaultLocation` alone (local only when the
config says `'local'`), independent of which vaults exist on disk; `init`
never uses a custom path, and `initializeVault` uses one exactly when it is
explicitly requested. -/
theorem vault_resolution_behavior (hl hg : Bool) (cfg : VaultConfigModel)
    (opt : Option Bool) (p : String) :
    serviceGetVaultPath true cfg = VaultDir.localDir ∧
    (serviceGetVaultPath false cfg
      = match cfg.defaultLocation, cfg.customPath with
        | VaultLocationKind.customLoc, some q => VaultDir.customDir q
        | _, _ => VaultDir.globalDir) ∧
    serviceOpsDir hl hg cfg
      = (if cfg.defaultLocation = VaultLocationKind.localLoc
         then VaultDir.localDir else VaultDir.globalDir) ∧
    initializeVaultDir opt (some p) = VaultDir.customDir p ∧
    initializeVaultDir opt none
      = (if opt.getD false then VaultDir.localDir else VaultDir.globalDir) := by
  refine ⟨rfl, rfl, ?_, rfl, rfl⟩
  by_cases h : cfg.defaultLocation = VaultLocationKind.localLoc <;>
    simp [serviceOpsDir, serviceInitDir, h]

end SecretSage
